import Mathlib

/-!
Verification of the Fourier demo program (`fourier_demo.py`).

The renderer (`draw_ascii_graph`) and the square-wave generator are embedded
over `ℚ`, the exact-arithmetic idealization of the Python floats; all of these
definitions are computable so that concrete renders can be evaluated by
`decide`.  The sine generator and the FFT magnitude spectrum
(`compute_fft_magnitudes`) are embedded over `ℝ` and `ℂ`, with the discrete
Fourier transform written as the sum `np.fft.fft` computes.
-/

namespace FourierDemo

/-- Python `min(values)` for a non-empty list (`v_min = min(values)`). -/
def vMin : List ℚ → ℚ
  | [] => 0
  | v :: vs => vs.foldl min v

/-- Python `max(values)` for a non-empty list (`v_max = max(values)`). -/
def vMax : List ℚ → ℚ
  | [] => 0
  | v :: vs => vs.foldl max v

/-- Source: `v_range = v_max - v_min if v_max != v_min else 1.0`. -/
def vRange (values : List ℚ) : ℚ :=
  if vMax values ≠ vMin values then vMax values - vMin values else 1

/-- Source: `idx = int(col * len(values) / width); idx = min(idx, len(values) - 1)`.
Here `col * n / width` is natural-number division, which agrees with
truncating the exact real quotient (proved in `resample_floor` below). -/
def resampleIdx (n width col : ℕ) : ℕ :=
  min (col * n / width) (n - 1)

/-- Source: the `resampled` list built by `resampled.append(values[idx])`. -/
def resample (values : List ℚ) (width : ℕ) : List ℚ :=
  (List.range width).map fun col => values.getD (resampleIdx values.length width col) 0

/-- Source: `val_row = (v_max - val) / v_range * (height - 1)`. -/
def valRow (values : List ℚ) (height : ℕ) (val : ℚ) : ℚ :=
  (vMax values - val) / vRange values * ((height : ℚ) - 1)

/-- Source: the test `abs(val_row - row) < 0.5` deciding whether a cell is
marked with `*`. -/
def markAt (x : ℚ) (row : ℕ) : Bool :=
  decide (|x - (row : ℚ)| < 1 / 2)

/-- Whether the rendered grid carries a `*` at a given row and column. -/
def markCell (values : List ℚ) (width height row col : ℕ) : Bool :=
  markAt (valRow values height ((resample values width).getD col 0)) row

/-- Source: the inner loop appending `"*"` or `" "` per column of a row. -/
def plotRow (values : List ℚ) (width height row : ℕ) : String :=
  String.mk ((List.range width).map fun col =>
    if markCell values width height row col then '*' else ' ')

/-- Round a rational to the nearest integer, ties to even: the rounding used
by Python `format(x, '.2f')` on exact decimal values. -/
def roundHalfEven (x : ℚ) : ℤ :=
  if Int.fract x < 1 / 2 then ⌊x⌋
  else if 1 / 2 < Int.fract x then ⌊x⌋ + 1
  else if ⌊x⌋ % 2 = 0 then ⌊x⌋ else ⌊x⌋ + 1

/-- Render a natural number below 100 as exactly two digits. -/
def twoDigits (n : ℕ) : String :=
  if n < 10 then "0" ++ Nat.repr n else Nat.repr n

/-- Python `format(q, '.2f')`: fixed-point rendering with two decimals. -/
def fmtFixed2 (q : ℚ) : String :=
  let n := roundHalfEven (q * 100)
  let a := n.natAbs
  (if n < 0 then "-" else "") ++ Nat.repr (a / 100) ++ "." ++ twoDigits (a % 100)

/-- Python `format(q, '>7.2f')`: the fixed-point rendering right-justified in a
field of (at least) 7 characters. -/
def fmt72 (q : ℚ) : String :=
  String.mk (List.replicate (7 - (fmtFixed2 q).length) ' ') ++ fmtFixed2 q

/-- Source: the `if row == 0 / elif row == height - 1 / elif row == height // 2`
chain selecting the y-axis label of a row. -/
def rowLabel (values : List ℚ) (height row : ℕ) : String :=
  if row = 0 then fmt72 (vMax values) ++ " |"
  else if row = height - 1 then fmt72 (vMin values) ++ " |"
  else if row = height / 2 then fmt72 ((vMax values + vMin values) / 2) ++ " |"
  else "        |"

/-- One printed content row: `print(label + "".join(line))`. -/
def rowLine (values : List ℚ) (width height row : ℕ) : String :=
  rowLabel values height row ++ plotRow values width height row

/-- Source: `print("        +" + "-" * width)`. -/
def axisLine (width : ℕ) : String :=
  "        +" ++ String.mk (List.replicate width '-')

/-- The lines printed by `draw_ascii_graph(values, title, width, height)` for
the graph proper (the title banner is presentation glue outside the spec). -/
def draw_ascii_graph (values : List ℚ) (width height : ℕ) : List String :=
  (List.range height).map (rowLine values width height) ++ [axisLine width]

/-- Source: `phase = (periods * i / num_samples) % 1.0` followed by
`1.0 if phase < 0.5 else -1.0`; Python `x % 1.0` is `Int.fract x`. -/
def generate_square (num_samples : ℕ) (periods : ℚ) : List ℚ :=
  (List.range num_samples).map fun i : ℕ =>
    if Int.fract (periods * (i : ℚ) / (num_samples : ℚ)) < 1 / 2 then 1 else -1

/-- Source: `math.sin(2 * math.pi * periods * i / num_samples)`. -/
noncomputable def generate_sine (num_samples : ℕ) (periods : ℝ) : List ℝ :=
  (List.range num_samples).map fun i : ℕ =>
    Real.sin (2 * Real.pi * periods * (i : ℝ) / (num_samples : ℝ))

/-- The discrete Fourier transform as computed by `np.fft.fft`: bin `k` is
`∑ signal[i] * exp(-2πI k i / N)`. -/
noncomputable def dft (signal : List ℝ) (k : ℕ) : ℂ :=
  ∑ i in Finset.range signal.length,
    (signal.getD i 0 : ℂ) *
      Complex.exp (-(2 * (Real.pi : ℂ) * Complex.I * k * i) / signal.length)

/-- Source: `np.abs(fft_result[:n // 2]) / n` followed by `magnitudes[1:] *= 2`. -/
noncomputable def compute_fft_magnitudes (signal : List ℝ) : List ℝ :=
  (List.range (signal.length / 2)).map fun k =>
    (if k = 0 then 1 else 2) * Complex.abs (dft signal k) / signal.length

/-! ### List and string access helpers -/

lemma getD_map_range {β : Type} (f : ℕ → β) (d : β) {n k : ℕ} (h : k < n) :
    ((List.range n).map f).getD k d = f k := by
  simp [List.getD_eq_getElem?_getD, List.getElem?_map, List.getElem?_range h]

lemma draw_length (values : List ℚ) (width height : ℕ) :
    (draw_ascii_graph values width height).length = height + 1 := by
  simp [draw_ascii_graph]

lemma draw_getD_lt (values : List ℚ) (width height i : ℕ) (h : i < height) :
    (draw_ascii_graph values width height).getD i "" = rowLine values width height i := by
  rw [draw_ascii_graph]
  have hlen : i < ((List.range height).map (rowLine values width height)).length := by
    simpa using h
  rw [List.getD_eq_getElem?_getD, List.getElem?_append_left hlen, List.getElem?_map,
    List.getElem?_range h]
  rfl

lemma draw_getD_last (values : List ℚ) (width height : ℕ) :
    (draw_ascii_graph values width height).getD height "" = axisLine width := by
  rw [draw_ascii_graph]
  have hlen : ((List.range height).map (rowLine values width height)).length ≤ height := by
    simp
  rw [List.getD_eq_getElem?_getD, List.getElem?_append_right hlen]
  simp

lemma plotRow_length (values : List ℚ) (width height row : ℕ) :
    (plotRow values width height row).length = width := by
  show ((List.range width).map _).length = width
  rw [List.length_map, List.length_range]

/-! ### Minimum and maximum of a non-empty list -/

lemma foldl_min_le_init (l : List ℚ) (a : ℚ) : l.foldl min a ≤ a := by
  induction l generalizing a with
  | nil => exact le_refl a
  | cons b t ih => exact le_trans (ih (min a b)) (min_le_left a b)

lemma foldl_min_le_mem (l : List ℚ) : ∀ (a x : ℚ), x ∈ l → l.foldl min a ≤ x := by
  induction l with
  | nil => intro a x hx; cases hx
  | cons b t ih =>
    intro a x hx
    rcases List.mem_cons.mp hx with rfl | hx'
    · exact le_trans (foldl_min_le_init t (min a x)) (min_le_right a x)
    · exact ih (min a b) x hx'

lemma init_le_foldl_max (l : List ℚ) (a : ℚ) : a ≤ l.foldl max a := by
  induction l generalizing a with
  | nil => exact le_refl a
  | cons b t ih => exact le_trans (le_max_left a b) (ih (max a b))

lemma mem_le_foldl_max (l : List ℚ) : ∀ (a x : ℚ), x ∈ l → x ≤ l.foldl max a := by
  induction l with
  | nil => intro a x hx; cases hx
  | cons b t ih =>
    intro a x hx
    rcases List.mem_cons.mp hx with rfl | hx'
    · exact le_trans (le_max_right a x) (init_le_foldl_max t (max a x))
    · exact ih (max a b) x hx'

lemma vMin_le (values : List ℚ) (v : ℚ) (hv : v ∈ values) : vMin values ≤ v := by
  cases values with
  | nil => cases hv
  | cons a t =>
    rcases List.mem_cons.mp hv with rfl | hv'
    · exact foldl_min_le_init t v
    · exact foldl_min_le_mem t a v hv'

lemma le_vMax (values : List ℚ) (v : ℚ) (hv : v ∈ values) : v ≤ vMax values := by
  cases values with
  | nil => cases hv
  | cons a t =>
    rcases List.mem_cons.mp hv with rfl | hv'
    · exact init_le_foldl_max t v
    · exact mem_le_foldl_max t a v hv'

lemma foldl_min_mem (l : List ℚ) : ∀ a : ℚ, l.foldl min a ∈ a :: l := by
  induction l with
  | nil => intro a; exact List.mem_singleton.mpr rfl
  | cons b t ih =>
    intro a
    show t.foldl min (min a b) ∈ a :: b :: t
    rcases List.mem_cons.mp (ih (min a b)) with h | h
    · rcases min_choice a b with h' | h'
      · rw [h, h']; exact List.mem_cons_self a (b :: t)
      · rw [h, h']; exact List.mem_cons_of_mem a (List.mem_cons_self b t)
    · exact List.mem_cons_of_mem a (List.mem_cons_of_mem b h)

lemma foldl_max_mem (l : List ℚ) : ∀ a : ℚ, l.foldl max a ∈ a :: l := by
  induction l with
  | nil => intro a; exact List.mem_singleton.mpr rfl
  | cons b t ih =>
    intro a
    show t.foldl max (max a b) ∈ a :: b :: t
    rcases List.mem_cons.mp (ih (max a b)) with h | h
    · rcases max_choice a b with h' | h'
      · rw [h, h']; exact List.mem_cons_self a (b :: t)
      · rw [h, h']; exact List.mem_cons_of_mem a (List.mem_cons_self b t)
    · exact List.mem_cons_of_mem a (List.mem_cons_of_mem b h)

lemma vMin_mem (values : List ℚ) (hne : values ≠ []) : vMin values ∈ values := by
  cases values with
  | nil => exact absurd rfl hne
  | cons a t => exact foldl_min_mem t a

lemma vMax_mem (values : List ℚ) (hne : values ≠ []) : vMax values ∈ values := by
  cases values with
  | nil => exact absurd rfl hne
  | cons a t => exact foldl_max_mem t a

/-! ### The marking rule -/

lemma markAt_iff (x : ℚ) (r : ℕ) :
    markAt x r = true ↔ (⌊x + 1 / 2⌋ = (r : ℤ) ∧ Int.fract (x + 1 / 2) ≠ 0) := by
  simp only [markAt, decide_eq_true_eq, abs_sub_lt_iff]
  constructor
  · rintro ⟨h1, h2⟩
    have hfl : ⌊x + 1 / 2⌋ = (r : ℤ) := by
      rw [Int.floor_eq_iff]
      push_cast
      constructor <;> linarith
    refine ⟨hfl, ?_⟩
    rw [Int.fract, hfl]
    push_cast
    intro h0
    linarith
  · rintro ⟨hfl, hfr⟩
    have h1 : ((r : ℤ) : ℚ) ≤ x + 1 / 2 := by rw [← hfl]; exact Int.floor_le _
    have h2 : x + 1 / 2 < ((r : ℤ) : ℚ) + 1 := by
      rw [← hfl]; exact Int.lt_floor_add_one _
    have hne : x + 1 / 2 ≠ ((r : ℤ) : ℚ) := by
      intro he
      apply hfr
      rw [Int.fract, hfl, he]
      push_cast
      ring
    push_cast at h1 h2 hne
    have h1' : (r : ℚ) < x + 1 / 2 := lt_of_le_of_ne h1 (Ne.symm hne)
    constructor <;> linarith

lemma mark_card_le_one (x : ℚ) (h : ℕ) :
    ((Finset.range h).filter (fun r => markAt x r = true)).card ≤ 1 := by
  rw [Finset.card_le_one]
  intro a ha b hb
  rw [Finset.mem_filter] at ha hb
  have ha' := (markAt_iff x a).mp ha.2
  have hb' := (markAt_iff x b).mp hb.2
  have : (a : ℤ) = (b : ℤ) := by rw [← ha'.1, ← hb'.1]
  exact_mod_cast this

lemma mark_card_eq_one (x : ℚ) (h : ℕ) (hx0 : 0 ≤ x) (hx1 : x ≤ (h : ℚ) - 1)
    (hfr : Int.fract (x + 1 / 2) ≠ 0) :
    ((Finset.range h).filter (fun r => markAt x r = true)).card = 1 := by
  have hfl0 : 0 ≤ ⌊x + 1 / 2⌋ := Int.floor_nonneg.mpr (by linarith)
  have hflh : ⌊x + 1 / 2⌋ < (h : ℤ) := by
    rw [Int.floor_lt]
    push_cast
    linarith
  have hr0 : (((⌊x + 1 / 2⌋).toNat : ℤ)) = ⌊x + 1 / 2⌋ := Int.toNat_of_nonneg hfl0
  have hr0h : (⌊x + 1 / 2⌋).toNat < h := by omega
  rw [Finset.card_eq_one]
  refine ⟨(⌊x + 1 / 2⌋).toNat, ?_⟩
  ext r
  simp only [Finset.mem_filter, Finset.mem_range, Finset.mem_singleton, markAt_iff]
  constructor
  · rintro ⟨hrh, hfl, -⟩
    have : ((⌊x + 1 / 2⌋).toNat : ℤ) = (r : ℤ) := hr0.trans hfl
    exact_mod_cast this.symm
  · rintro rfl
    exact ⟨hr0h, hr0.symm, hfr⟩

lemma resample_getD_mem (values : List ℚ) (width col : ℕ)
    (hne : values ≠ []) (hcol : col < width) :
    (resample values width).getD col 0 ∈ values := by
  rw [resample, getD_map_range _ _ hcol]
  have hlen : 0 < values.length := List.length_pos.mpr hne
  have hidx : resampleIdx values.length width col < values.length := by
    simp only [resampleIdx]
    omega
  rw [List.getD_eq_getElem _ _ hidx]
  exact List.getElem_mem hidx

lemma valRow_nonneg_le (values : List ℚ) (height : ℕ) (val : ℚ)
    (hh : 2 ≤ height) (hmem : val ∈ values) :
    0 ≤ valRow values height val ∧ valRow values height val ≤ (height : ℚ) - 1 := by
  have hle : vMin values ≤ val := vMin_le values val hmem
  have hge : val ≤ vMax values := le_vMax values val hmem
  have hh1 : (1 : ℚ) ≤ (height : ℚ) - 1 := by
    have h2 : ((2 : ℕ) : ℚ) ≤ (height : ℚ) := by exact_mod_cast hh
    push_cast at h2
    linarith
  simp only [valRow, vRange]
  split_ifs with hflat
  · have hmle : vMin values ≤ vMax values := hle.trans hge
    have hlt : 0 < vMax values - vMin values := by
      rcases lt_or_eq_of_le hmle with h | h
      · linarith
      · exact absurd h.symm hflat
    constructor
    · apply mul_nonneg
      · apply div_nonneg <;> linarith
      · linarith
    · have hd1 : (vMax values - val) / (vMax values - vMin values) ≤ 1 := by
        rw [div_le_one hlt]
        linarith
      have hmul := mul_le_mul_of_nonneg_right hd1 (by linarith : (0 : ℚ) ≤ (height : ℚ) - 1)
      linarith
  · push_neg at hflat
    have hveq : val = vMax values := le_antisymm hge (by rw [hflat]; exact hle)
    rw [hveq, sub_self, zero_div, zero_mul]
    exact ⟨le_refl 0, by linarith⟩

/-! ### Evaluating the label formatter on concrete values -/

lemma roundHalfEven_intCast (n : ℤ) : roundHalfEven ((n : ℚ)) = n := by
  simp only [roundHalfEven, Int.fract_intCast, Int.floor_intCast]
  rw [if_pos (by norm_num : (0 : ℚ) < 1 / 2)]

lemma fmtFixed2_of_int (q : ℚ) (n : ℤ) (h : q * 100 = (n : ℚ)) (hn : 0 ≤ n) :
    fmtFixed2 q = Nat.repr (n.toNat / 100) ++ "." ++ twoDigits (n.toNat % 100) := by
  simp only [fmtFixed2, h, roundHalfEven_intCast]
  rw [if_neg (by omega : ¬ n < 0)]
  have habs : n.natAbs = n.toNat := by omega
  rw [habs]
  have : ("" : String) ++ (Nat.repr (n.toNat / 100) ++ "." ++ twoDigits (n.toNat % 100)) =
      Nat.repr (n.toNat / 100) ++ "." ++ twoDigits (n.toNat % 100) := by
    cases hrepr : Nat.repr (n.toNat / 100) ++ "." ++ twoDigits (n.toNat % 100)
    rfl
  rw [← this]
  rfl

lemma fmtFixed2_zero : fmtFixed2 0 = "0.00" := by
  rw [fmtFixed2_of_int 0 0 (by norm_num) (by norm_num)]
  decide

lemma fmtFixed2_half : fmtFixed2 (1 / 2) = "0.50" := by
  rw [fmtFixed2_of_int (1 / 2) 50 (by norm_num) (by norm_num)]
  decide

lemma fmtFixed2_one : fmtFixed2 1 = "1.00" := by
  rw [fmtFixed2_of_int 1 100 (by norm_num) (by norm_num)]
  decide

lemma fmtFixed2_five : fmtFixed2 5 = "5.00" := by
  rw [fmtFixed2_of_int 5 500 (by norm_num) (by norm_num)]
  decide

lemma fmtFixed2_hundredk : fmtFixed2 100000 = "100000.00" := by
  rw [fmtFixed2_of_int 100000 10000000 (by norm_num) (by norm_num)]
  decide

lemma fmt72_length_of_le (q : ℚ) (h : (fmtFixed2 q).length ≤ 7) : (fmt72 q).length = 7 := by
  rw [fmt72, String.length_append]
  have h1 : (String.mk (List.replicate (7 - (fmtFixed2 q).length) ' ')).length =
      7 - (fmtFixed2 q).length := by
    show (List.replicate (7 - (fmtFixed2 q).length) ' ').length = _
    rw [List.length_replicate]
  rw [h1]
  omega

lemma rowLabel_length (values : List ℚ) (height row : ℕ)
    (hmax : (fmtFixed2 (vMax values)).length ≤ 7)
    (hmin : (fmtFixed2 (vMin values)).length ≤ 7)
    (hmid : (fmtFixed2 ((vMax values + vMin values) / 2)).length ≤ 7) :
    (rowLabel values height row).length = 9 := by
  rw [rowLabel]
  split_ifs
  · rw [String.length_append, fmt72_length_of_le _ hmax]; rfl
  · rw [String.length_append, fmt72_length_of_le _ hmin]; rfl
  · rw [String.length_append, fmt72_length_of_le _ hmid]; rfl
  · rfl

/-! ### Concrete evaluations at the tie input `[0, 1/2, 1]` -/

lemma tie_valRow :
    valRow [0, 1 / 2, 1] 2 ((resample [0, 1 / 2, 1] 3).getD 1 0) = 1 / 2 := by
  have hres : (resample [0, 1 / 2, 1] 3).getD 1 0 = 1 / 2 := rfl
  have hmax : vMax [0, 1 / 2, 1] = 1 := by
    show max (max (0 : ℚ) (1 / 2)) 1 = 1
    norm_num [max_def]
  have hmin : vMin [0, 1 / 2, 1] = 0 := by
    show min (min (0 : ℚ) (1 / 2)) 1 = 0
    norm_num [min_def]
  rw [hres]
  simp only [valRow, vRange, hmax, hmin]
  rw [if_pos (by norm_num : (1 : ℚ) ≠ 0)]
  push_cast
  norm_num

lemma tie_mark_false (r : ℕ) (hr : r < 2) :
    markCell [0, 1 / 2, 1] 3 2 r 1 = false := by
  show markAt (valRow [0, 1 / 2, 1] 2 ((resample [0, 1 / 2, 1] 3).getD 1 0)) r = false
  rw [tie_valRow]
  simp only [markAt, decide_eq_false_iff_not, abs_sub_lt_iff]
  interval_cases r
  · push_cast
    rintro ⟨h1, -⟩
    linarith
  · push_cast
    rintro ⟨-, h2⟩
    linarith

/-! ### Claim theorems about the renderer grid -/

/-- Claim C2 (counterexample): at the input `[0, 1/2, 1]` rendered with width 3
and height 2, column 1 has continuous row position exactly halfway between
rows 0 and 1, yet the mark is placed neither at the lower row 0 (as the claim
asserts) nor at row 1. -/
theorem mark_tie_cx :
    valRow [0, 1 / 2, 1] 2 ((resample [0, 1 / 2, 1] 3).getD 1 0) = 1 / 2 ∧
    markCell [0, 1 / 2, 1] 3 2 0 1 = false ∧
    markCell [0, 1 / 2, 1] 3 2 1 1 = false :=
  ⟨tie_valRow, tie_mark_false 0 (by omega), tie_mark_false 1 (by omega)⟩

/-- Claim C2 (amended): the rule `|val_row - r| < 0.5` marks row `r` exactly
when `r` is the nearest integer `⌊val_row + 1/2⌋` and `val_row` is not exactly
halfway between two integers; at an exact tie no row is marked at all (ties do
not go to the lower row index). -/
theorem mark_tie_amended (values : List ℚ) (width height row col : ℕ) :
    markCell values width height row col = true ↔
      (⌊valRow values height ((resample values width).getD col 0) + 1 / 2⌋ = (row : ℤ) ∧
        Int.fract (valRow values height ((resample values width).getD col 0) + 1 / 2) ≠ 0) :=
  markAt_iff _ _

/-- Claim C3 (counterexample): at the input `[0, 1/2, 1]` rendered with
width 3 and height 2, column 1 contains zero plotted marks, not exactly one. -/
theorem one_mark_cx :
    ((Finset.range 2).filter (fun r => markCell [0, 1 / 2, 1] 3 2 r 1 = true)).card = 0 := by
  rw [Finset.card_eq_zero, Finset.filter_eq_empty_iff]
  intro r hr
  rw [Finset.mem_range] at hr
  rw [tie_mark_false r hr]
  simp

lemma mark_card_eq_zero (x : ℚ) (h : ℕ) (hfr : Int.fract (x + 1 / 2) = 0) :
    ((Finset.range h).filter (fun r => markAt x r = true)).card = 0 := by
  rw [Finset.card_eq_zero, Finset.filter_eq_empty_iff]
  intro r _
  intro hmark
  exact ((markAt_iff x r).mp hmark).2 hfr

/-- Claim C3 (amended): every column of the rendered grid contains at most one
plotted mark, and exactly one unless the column's continuous row position is
exactly halfway between two integer rows, in which case it contains none. -/
theorem one_mark_amended (values : List ℚ) (width height col : ℕ)
    (hne : values ≠ []) (hh : 2 ≤ height) (hcol : col < width) :
    ((Finset.range height).filter (fun r => markCell values width height r col = true)).card ≤ 1 ∧
    (Int.fract (valRow values height ((resample values width).getD col 0) + 1 / 2) ≠ 0 →
      ((Finset.range height).filter
        (fun r => markCell values width height r col = true)).card = 1) ∧
    (Int.fract (valRow values height ((resample values width).getD col 0) + 1 / 2) = 0 →
      ((Finset.range height).filter
        (fun r => markCell values width height r col = true)).card = 0) := by
  have hmem := resample_getD_mem values width col hne hcol
  obtain ⟨h0, h1⟩ := valRow_nonneg_le values height _ hh hmem
  exact ⟨mark_card_le_one _ _, fun hfr => mark_card_eq_one _ _ h0 h1 hfr,
    fun hfr => mark_card_eq_zero _ _ hfr⟩

/-- Claim C3 (witness): at `[0, 1]` rendered with width 2 and height 2,
column 0 contains exactly one plotted mark. -/
theorem one_mark_amended_witness :
    ((Finset.range 2).filter (fun r => markCell [0, 1] 2 2 r 0 = true)).card = 1 := by
  have hfr : Int.fract (valRow [0, 1] 2 ((resample [0, 1] 2).getD 0 0) + 1 / 2) ≠ 0 := by
    have hres : (resample [0, 1] 2).getD 0 0 = 0 := rfl
    have hmax : vMax [0, 1] = 1 := by
      show max (0 : ℚ) 1 = 1
      norm_num [max_def]
    have hmin : vMin [0, 1] = 0 := by
      show min (0 : ℚ) 1 = 0
      norm_num [min_def]
    rw [hres]
    simp only [valRow, vRange, hmax, hmin]
    rw [if_pos (by norm_num : (1 : ℚ) ≠ 0), Int.fract]
    push_cast
    norm_num
  exact (one_mark_amended [0, 1] 2 2 0 (by simp) (by omega) (by omega)).2.1 hfr

/-- Claim C4 (counterexample): rendering `[0, 1]` with height 2, the row at
index `height // 2 = 1` is labeled with `v_min = 0.00`, not with the midpoint
`0.50`, because that row coincides with the last row and the `elif` chain
gives the last row's label priority. -/
theorem axis_labels_cx :
    rowLabel [0, 1] 2 (2 / 2) = "   0.00 |" ∧
    fmt72 ((vMax [0, 1] + vMin [0, 1]) / 2) ++ " |" = "   0.50 |" ∧
    rowLabel [0, 1] 2 (2 / 2) ≠ fmt72 ((vMax [0, 1] + vMin [0, 1]) / 2) ++ " |" := by
  have hmax : vMax [0, 1] = 1 := by
    show max (0 : ℚ) 1 = 1
    norm_num [max_def]
  have hmin : vMin [0, 1] = 0 := by
    show min (0 : ℚ) 1 = 0
    norm_num [min_def]
  have hmid : (vMax [0, 1] + vMin [0, 1]) / 2 = 1 / 2 := by
    rw [hmax, hmin]
    norm_num
  have h1 : rowLabel [0, 1] 2 (2 / 2) = "   0.00 |" := by
    show fmt72 (vMin [0, 1]) ++ " |" = "   0.00 |"
    rw [hmin, fmt72, fmtFixed2_zero]
    decide
  have h2 : fmt72 ((vMax [0, 1] + vMin [0, 1]) / 2) ++ " |" = "   0.50 |" := by
    rw [hmid, fmt72, fmtFixed2_half]
    decide
  refine ⟨h1, h2, ?_⟩
  rw [h1, h2]
  decide

/-- Claim C4 (amended): for height >= 2, row 0 is labeled with `v_max` and the
last row with `v_min`; the row at index `height // 2` is labeled with the
midpoint `(v_max + v_min) / 2` when height >= 3, but when height = 2 it
coincides with the last row and is labeled with `v_min` instead; every other
row carries the blank label. -/
theorem axis_labels_amended (values : List ℚ) (height : ℕ) (hh : 2 ≤ height) :
    rowLabel values height 0 = fmt72 (vMax values) ++ " |" ∧
    rowLabel values height (height - 1) = fmt72 (vMin values) ++ " |" ∧
    (3 ≤ height →
      rowLabel values height (height / 2) = fmt72 ((vMax values + vMin values) / 2) ++ " |") ∧
    (height = 2 → rowLabel values height (height / 2) = fmt72 (vMin values) ++ " |") ∧
    (∀ r, 0 < r → r < height → r ≠ height - 1 → r ≠ height / 2 →
      rowLabel values height r = "        |") := by
  refine ⟨?_, ?_, ?_, ?_, ?_⟩
  · simp only [rowLabel, if_true]
  · simp only [rowLabel]
    rw [if_neg (by omega : ¬ height - 1 = 0)]
    simp only [if_true]
  · intro h3
    simp only [rowLabel]
    rw [if_neg (by omega : ¬ height / 2 = 0),
      if_neg (by omega : ¬ height / 2 = height - 1)]
    simp only [if_true]
  · rintro rfl
    rfl
  · intro r hr0 hrh hrlast hrmid
    simp only [rowLabel]
    rw [if_neg (by omega : ¬ r = 0), if_neg hrlast, if_neg hrmid]

/-- Claim C4 (witness): the amended label layout at `values = [0, 1]` and
height 4. -/
theorem axis_labels_amended_witness :
    rowLabel [0, 1] 4 0 = fmt72 (vMax [0, 1]) ++ " |" ∧
    rowLabel [0, 1] 4 (4 - 1) = fmt72 (vMin [0, 1]) ++ " |" ∧
    (3 ≤ 4 →
      rowLabel [0, 1] 4 (4 / 2) = fmt72 ((vMax [0, 1] + vMin [0, 1]) / 2) ++ " |") ∧
    ((4 : ℕ) = 2 → rowLabel [0, 1] 4 (4 / 2) = fmt72 (vMin [0, 1]) ++ " |") ∧
    (∀ r, 0 < r → r < 4 → r ≠ 4 - 1 → r ≠ 4 / 2 →
      rowLabel [0, 1] 4 r = "        |") :=
  axis_labels_amended [0, 1] 4 (by omega)

/-- Claim C8 (confirmed): rendering a constant sequence substitutes the unit
range 1 as the divisor (so the divisor is never zero), while the top, bottom,
and middle row labels all display the true constant value. -/
theorem flat_signal_safe (values : List ℚ) (c : ℚ) (width height : ℕ)
    (hne : values ≠ []) (hconst : ∀ v ∈ values, v = c)
    (hw : 1 ≤ width) (hh : 2 ≤ height) :
    vRange values = 1 ∧
    rowLabel values height 0 = fmt72 c ++ " |" ∧
    rowLabel values height (height - 1) = fmt72 c ++ " |" ∧
    rowLabel values height (height / 2) = fmt72 c ++ " |" := by
  have hmax : vMax values = c := hconst _ (vMax_mem values hne)
  have hmin : vMin values = c := hconst _ (vMin_mem values hne)
  have hvr : vRange values = 1 := by
    rw [vRange, if_neg]
    rw [hmax, hmin]
    simp
  refine ⟨hvr, ?_, ?_, ?_⟩
  · simp only [rowLabel, if_true, hmax]
  · simp only [rowLabel]
    rw [if_neg (by omega : ¬ height - 1 = 0)]
    simp only [if_true, hmin]
  · by_cases hcase : height / 2 = height - 1
    · simp only [rowLabel]
      rw [if_neg (by omega : ¬ height / 2 = 0), if_pos hcase, hmin]
    · simp only [rowLabel]
      rw [if_neg (by omega : ¬ height / 2 = 0), if_neg hcase]
      simp only [if_true]
      rw [hmax, hmin]
      have : (c + c) / 2 = c := by ring
      rw [this]

/-- Claim C8 (witness): rendering the constant sequence `[5, 5, 5]` with
width 2 and height 2 uses divisor 1 and labels all three display rows with
the true value 5, whose label reads `   5.00 |`. -/
theorem flat_signal_safe_witness :
    (vRange [5, 5, 5] = 1 ∧
      rowLabel [5, 5, 5] 2 0 = fmt72 5 ++ " |" ∧
      rowLabel [5, 5, 5] 2 (2 - 1) = fmt72 5 ++ " |" ∧
      rowLabel [5, 5, 5] 2 (2 / 2) = fmt72 5 ++ " |") ∧
    fmt72 5 ++ " |" = "   5.00 |" := by
  constructor
  · exact flat_signal_safe [5, 5, 5] 5 2 2 (by simp)
      (fun v hv => by simpa using hv) (by omega) (by omega)
  · rw [fmt72, fmtFixed2_five]
    decide

/-- Claim C10 (confirmed): for a constant input sequence every column's
continuous row position is 0, so the rendered grid carries a mark in every
column of row 0 and in no other row: a flat signal is drawn along the top
edge. -/
theorem flat_top_row (values : List ℚ) (c : ℚ) (width height col : ℕ)
    (hne : values ≠ []) (hconst : ∀ v ∈ values, v = c)
    (hw : 1 ≤ width) (hh : 2 ≤ height) (hcol : col < width) :
    valRow values height ((resample values width).getD col 0) = 0 ∧
    markCell values width height 0 col = true ∧
    (∀ r, 0 < r → r < height → markCell values width height r col = false) := by
  have hmem := resample_getD_mem values width col hne hcol
  have hval : (resample values width).getD col 0 = c := hconst _ hmem
  have hmax : vMax values = c := hconst _ (vMax_mem values hne)
  have hvr : valRow values height ((resample values width).getD col 0) = 0 := by
    simp only [valRow, hval, hmax, sub_self, zero_div, zero_mul]
  refine ⟨hvr, ?_, ?_⟩
  · show markAt (valRow values height ((resample values width).getD col 0)) 0 = true
    rw [hvr]
    simp only [markAt, decide_eq_true_eq]
    push_cast
    rw [abs_sub_lt_iff]
    constructor <;> norm_num
  · intro r hr0 hrh
    show markAt (valRow values height ((resample values width).getD col 0)) r = false
    rw [hvr]
    simp only [markAt, decide_eq_false_iff_not, abs_sub_lt_iff]
    rintro ⟨-, h2⟩
    have hr1 : (1 : ℚ) ≤ (r : ℚ) := by exact_mod_cast hr0
    linarith

/-- Claim C10 (witness): the flat sequence `[5, 5]` rendered with width 2 and
height 3 marks column 1 at row 0 and nowhere else. -/
theorem flat_top_row_witness :
    valRow [5, 5] 3 ((resample [5, 5] 2).getD 1 0) = 0 ∧
    markCell [5, 5] 2 3 0 1 = true ∧
    (∀ r, 0 < r → r < 3 → markCell [5, 5] 2 3 r 1 = false) :=
  flat_top_row [5, 5] 5 2 3 1 (by simp)
    (fun v hv => by simpa using hv) (by omega) (by omega) (by omega)

/-- Claim C5 (confirmed): each square-wave sample is `+1` when the phase
`(periods * i / num_samples) mod 1` is below `1/2` and `-1` otherwise; the
boundary phase `1/2` yields `-1`, and every sample is exactly `+1` or `-1`. -/
theorem square_wave_values (num_samples : ℕ) (periods : ℚ) (i : ℕ)
    (hn : 0 < num_samples) (hp : 0 < periods) (hi : i < num_samples) :
    (generate_square num_samples periods).getD i 0 =
      (if Int.fract (periods * i / num_samples) < 1 / 2 then 1 else -1) ∧
    (Int.fract (periods * i / num_samples) = 1 / 2 →
      (generate_square num_samples periods).getD i 0 = -1) ∧
    ((generate_square num_samples periods).getD i 0 = 1 ∨
      (generate_square num_samples periods).getD i 0 = -1) := by
  have hg : (generate_square num_samples periods).getD i 0 =
      (if Int.fract (periods * i / num_samples) < 1 / 2 then (1 : ℚ) else -1) := by
    rw [generate_square, getD_map_range _ _ hi]
  refine ⟨hg, ?_, ?_⟩
  · intro hhalf
    rw [hg, hhalf, if_neg (lt_irrefl _)]
  · rw [hg]
    split_ifs
    · exact Or.inl rfl
    · exact Or.inr rfl

/-- Claim C5 (witness): with 4 samples and one period, sample 2 sits exactly
on the boundary phase `1/2` and takes the value `-1`. -/
theorem square_wave_values_witness :
    ((generate_square 4 1).getD 2 0 =
      (if Int.fract ((1 : ℚ) * 2 / 4) < 1 / 2 then 1 else -1) ∧
    (Int.fract ((1 : ℚ) * 2 / 4) = 1 / 2 → (generate_square 4 1).getD 2 0 = -1) ∧
    ((generate_square 4 1).getD 2 0 = 1 ∨ (generate_square 4 1).getD 2 0 = -1)) ∧
    Int.fract ((1 : ℚ) * 2 / 4) = 1 / 2 := by
  have hfr : Int.fract ((1 : ℚ) * 2 / 4) = 1 / 2 := by
    rw [Int.fract]
    norm_num
  exact ⟨square_wave_values 4 1 2 (by omega) (by norm_num) (by omega), hfr⟩

/-- Claim C9 (confirmed): the horizontal resampling picks, for output column
`col`, the source sample at index `⌊col * len(values) / width⌋` clamped to
`len(values) - 1`, with no interpolation. -/
theorem resample_floor (values : List ℚ) (width col : ℕ)
    (hne : values ≠ []) (hw : 1 ≤ width) (hcol : col < width) :
    (resample values width).getD col 0 =
      values.getD (min (⌊(col : ℚ) * (values.length : ℚ) / (width : ℚ)⌋₊)
        (values.length - 1)) 0 := by
  rw [resample, getD_map_range _ _ hcol]
  have hfloor : ⌊(col : ℚ) * (values.length : ℚ) / (width : ℚ)⌋₊ =
      col * values.length / width := by
    rw [show (col : ℚ) * (values.length : ℚ) / (width : ℚ) =
        ((col * values.length : ℕ) : ℚ) / ((width : ℕ) : ℚ) by push_cast; ring]
    rw [Nat.floor_div_nat, Nat.floor_natCast]
  rw [hfloor]
  rfl

/-- Claim C9 (witness): the resampling formula evaluated at `[1, 2, 3]`,
width 2, column 1. -/
theorem resample_floor_witness :
    (resample [1, 2, 3] 2).getD 1 0 =
      List.getD [1, 2, 3]
        (min (⌊((1 : ℕ) : ℚ) * ((([1, 2, 3] : List ℚ).length : ℕ) : ℚ) / (((2 : ℕ) : ℕ) : ℚ)⌋₊)
          (([1, 2, 3] : List ℚ).length - 1)) 0 :=
  resample_floor [1, 2, 3] 2 1 (by simp) (by omega) (by omega)

/-- Claim C1 (counterexample): rendering the one-element sequence `[100000]`
with width 70 and height 15 produces a first content line of 81 characters,
not 79, because the value `100000.00` does not fit the 7-character label
field. -/
theorem render_shape_cx :
    ((draw_ascii_graph [100000] 70 15).getD 0 "").length = 81 ∧
    ((draw_ascii_graph [100000] 70 15).getD 0 "").length ≠ 79 := by
  have hline := draw_getD_lt [100000] 70 15 0 (by omega)
  have hmax : vMax [100000] = 100000 := rfl
  have hlab : rowLabel [100000] 15 0 = fmt72 100000 ++ " |" := by
    show fmt72 (vMax [100000]) ++ " |" = fmt72 100000 ++ " |"
    rw [hmax]
  have hflen : (fmt72 (100000 : ℚ)).length = 9 := by
    rw [fmt72, fmtFixed2_hundredk]
    decide
  have hlen : ((draw_ascii_graph [100000] 70 15).getD 0 "").length = 81 := by
    rw [hline, rowLine, String.length_append, hlab, String.length_append, hflen,
      plotRow_length]
    decide
  exact ⟨hlen, by rw [hlen]; omega⟩

/-- Claim C1 (amended): rendering any non-empty sequence with width 70 and
height 15 always yields exactly 15 content lines plus one trailing axis-rule
line, each content line being the row label followed by exactly 70 plot
characters drawn from `*` and space; every content line has exactly
`9 + 70 = 79` characters provided each of the three displayed label values
(`v_max`, `v_min`, midpoint) formats into at most 7 characters (large values
overflow the label field and lengthen the line). -/
theorem render_shape_amended (values : List ℚ) (hne : values ≠ [])
    (hmax : (fmtFixed2 (vMax values)).length ≤ 7)
    (hmin : (fmtFixed2 (vMin values)).length ≤ 7)
    (hmid : (fmtFixed2 ((vMax values + vMin values) / 2)).length ≤ 7) :
    (draw_ascii_graph values 70 15).length = 16 ∧
    (draw_ascii_graph values 70 15).getD 15 "" = axisLine 70 ∧
    (∀ i < 15,
      (draw_ascii_graph values 70 15).getD i "" =
        rowLabel values 15 i ++ plotRow values 70 15 i ∧
      ((draw_ascii_graph values 70 15).getD i "").length = 79 ∧
      (∀ ch ∈ ((draw_ascii_graph values 70 15).getD i "").data.drop 9,
        ch = '*' ∨ ch = ' ')) := by
  refine ⟨by rw [draw_length], draw_getD_last values 70 15, ?_⟩
  intro i hi
  have hline := draw_getD_lt values 70 15 i hi
  have hlab := rowLabel_length values 15 i hmax hmin hmid
  refine ⟨by rw [hline]; rfl, ?_, ?_⟩
  · rw [hline, rowLine, String.length_append, hlab, plotRow_length]
  · intro ch hch
    rw [hline, rowLine, String.data_append] at hch
    have hld : (rowLabel values 15 i).data.length = 9 := hlab
    rw [← hld, List.drop_left] at hch
    have hdata : (plotRow values 70 15 i).data =
        (List.range 70).map fun col => if markCell values 70 15 i col then '*' else ' ' := rfl
    rw [hdata, List.mem_map] at hch
    obtain ⟨col, -, rfl⟩ := hch
    by_cases h : markCell values 70 15 i col <;> simp [h]

/-- Claim C1 (witness): the amended render-shape property at `values = [0, 1]`,
whose labels `1.00`, `0.00` and `0.50` all fit the 7-character field. -/
theorem render_shape_amended_witness :
    (draw_ascii_graph [0, 1] 70 15).length = 16 ∧
    (draw_ascii_graph [0, 1] 70 15).getD 15 "" = axisLine 70 ∧
    (∀ i < 15,
      (draw_ascii_graph [0, 1] 70 15).getD i "" =
        rowLabel [0, 1] 15 i ++ plotRow [0, 1] 70 15 i ∧
      ((draw_ascii_graph [0, 1] 70 15).getD i "").length = 79 ∧
      (∀ ch ∈ ((draw_ascii_graph [0, 1] 70 15).getD i "").data.drop 9,
        ch = '*' ∨ ch = ' ')) := by
  have hmax : vMax [0, 1] = 1 := by
    show max (0 : ℚ) 1 = 1
    norm_num [max_def]
  have hmin : vMin [0, 1] = 0 := by
    show min (0 : ℚ) 1 = 0
    norm_num [min_def]
  have hmid : (vMax [0, 1] + vMin [0, 1]) / 2 = 1 / 2 := by
    rw [hmax, hmin]
    norm_num
  exact render_shape_amended [0, 1] (by simp)
    (by rw [hmax, fmtFixed2_one]; decide)
    (by rw [hmin, fmtFixed2_zero]; decide)
    (by rw [hmid, fmtFixed2_half]; decide)

/-! ### The DFT: bin 0 and general facts -/

lemma sum_getD_real (l : List ℝ) : ∑ i in Finset.range l.length, l.getD i 0 = l.sum := by
  induction l with
  | nil => simp
  | cons a t ih =>
    rw [List.length_cons, Finset.sum_range_succ']
    simp only [List.getD_cons_succ, List.getD_cons_zero]
    rw [ih, List.sum_cons, add_comm]

lemma dft_zero (signal : List ℝ) : dft signal 0 = ((signal.sum : ℝ) : ℂ) := by
  rw [dft]
  have h : ∀ i ∈ Finset.range signal.length,
      (signal.getD i 0 : ℂ) *
        Complex.exp (-(2 * (Real.pi : ℂ) * Complex.I * ((0 : ℕ) : ℂ) * (i : ℂ)) /
          (signal.length : ℂ)) = (signal.getD i 0 : ℂ) := by
    intro i _
    simp
  rw [Finset.sum_congr rfl h, ← Complex.ofReal_sum, sum_getD_real]

/-- Claim C6 (confirmed): for a non-empty signal of length `N`, the magnitude
spectrum has exactly `N / 2` entries, all non-negative; bin 0 (when present)
equals `|mean(signal)|` and is not doubled, while every bin `k >= 1` equals
twice the raw transform magnitude divided by `N`. -/
theorem spectrum_shape (signal : List ℝ) (hne : signal ≠ []) :
    (compute_fft_magnitudes signal).length = signal.length / 2 ∧
    (∀ m ∈ compute_fft_magnitudes signal, 0 ≤ m) ∧
    (2 ≤ signal.length →
      (compute_fft_magnitudes signal).getD 0 0 = |signal.sum / (signal.length : ℝ)|) ∧
    (∀ k, 1 ≤ k → k < signal.length / 2 →
      (compute_fft_magnitudes signal).getD k 0 =
        2 * (Complex.abs (dft signal k) / (signal.length : ℝ))) := by
  refine ⟨?_, ?_, ?_, ?_⟩
  · simp [compute_fft_magnitudes]
  · intro m hm
    rw [compute_fft_magnitudes, List.mem_map] at hm
    obtain ⟨k, -, rfl⟩ := hm
    apply div_nonneg
    · apply mul_nonneg
      · split_ifs <;> norm_num
      · exact AbsoluteValue.nonneg _ _
    · exact Nat.cast_nonneg _
  · intro h2
    have h0 : 0 < signal.length / 2 := by omega
    rw [compute_fft_magnitudes, getD_map_range _ _ h0, if_pos rfl, dft_zero, one_mul,
      Complex.abs_ofReal, abs_div, Nat.abs_cast]
  · intro k h1 hk
    rw [compute_fft_magnitudes, getD_map_range _ _ hk, if_neg (by omega : ¬ k = 0),
      mul_div_assoc]

/-- Claim C6 (witness): the spectrum shape at the concrete signal `[1, -3]`. -/
theorem spectrum_shape_witness :
    (compute_fft_magnitudes [1, -3]).length = ([1, -3] : List ℝ).length / 2 ∧
    (∀ m ∈ compute_fft_magnitudes [1, -3], 0 ≤ m) ∧
    (2 ≤ ([1, -3] : List ℝ).length →
      (compute_fft_magnitudes [1, -3]).getD 0 0 =
        |([1, -3] : List ℝ).sum / ((([1, -3] : List ℝ).length : ℕ) : ℝ)|) ∧
    (∀ k, 1 ≤ k → k < ([1, -3] : List ℝ).length / 2 →
      (compute_fft_magnitudes [1, -3]).getD k 0 =
        2 * (Complex.abs (dft [1, -3] k) / ((([1, -3] : List ℝ).length : ℕ) : ℝ))) :=
  spectrum_shape [1, -3] (by simp)

/-! ### The 128-sample sine spectrum -/

/-- The primitive-root powers `exp(2 pi I m / 128)` used to evaluate the DFT
of the 128-sample sine wave. -/
noncomputable def cexp128 (m : ℤ) : ℂ :=
  Complex.exp (2 * (Real.pi : ℂ) * Complex.I * (m : ℂ) / 128)

lemma cexp128_add (m n : ℤ) : cexp128 (m + n) = cexp128 m * cexp128 n := by
  simp only [cexp128]
  rw [← Complex.exp_add]
  congr 1
  push_cast
  ring

lemma cexp128_mul_nat (m : ℤ) (i : ℕ) : cexp128 (m * i) = cexp128 m ^ i := by
  simp only [cexp128]
  rw [← Complex.exp_nat_mul]
  congr 1
  push_cast
  ring

lemma two_pi_I_ne_zero : (2 * (Real.pi : ℂ) * Complex.I) ≠ 0 := by
  have hpi : ((Real.pi : ℂ)) ≠ 0 := Complex.ofReal_ne_zero.mpr Real.pi_ne_zero
  exact mul_ne_zero (mul_ne_zero two_ne_zero hpi) Complex.I_ne_zero

lemma cexp128_eq_one_iff (m : ℤ) : cexp128 m = 1 ↔ (128 : ℤ) ∣ m := by
  simp only [cexp128]
  rw [Complex.exp_eq_one_iff]
  constructor
  · rintro ⟨n, hn⟩
    refine ⟨n, ?_⟩
    have key : (2 * (Real.pi : ℂ) * Complex.I) * (m : ℂ) =
        (2 * (Real.pi : ℂ) * Complex.I) * ((128 : ℂ) * (n : ℂ)) := by
      field_simp at hn
      linear_combination hn
    have hm : (m : ℂ) = (128 : ℂ) * n := mul_left_cancel₀ two_pi_I_ne_zero key
    exact_mod_cast hm
  · rintro ⟨n, rfl⟩
    refine ⟨n, ?_⟩
    push_cast
    ring

lemma sum_cexp128 (m : ℤ) :
    ∑ i in Finset.range 128, cexp128 (m * i) = if (128 : ℤ) ∣ m then (128 : ℂ) else 0 := by
  have hrw : ∀ i ∈ Finset.range 128, cexp128 (m * i) = cexp128 m ^ i :=
    fun i _ => cexp128_mul_nat m i
  rw [Finset.sum_congr rfl hrw]
  by_cases h : (128 : ℤ) ∣ m
  · rw [if_pos h, (cexp128_eq_one_iff m).mpr h]
    simp
  · rw [if_neg h]
    have hne : cexp128 m ≠ 1 := fun he => h ((cexp128_eq_one_iff m).mp he)
    rw [geom_sum_eq hne]
    have hpow : cexp128 m ^ 128 = 1 := by
      have h128 : cexp128 (m * (128 : ℕ)) = cexp128 m ^ (128 : ℕ) := cexp128_mul_nat m 128
      rw [← h128]
      exact (cexp128_eq_one_iff _).mpr ⟨m, by push_cast; ring⟩
    rw [hpow]
    simp

lemma generate_sine_length : (generate_sine 128 4).length = 128 := by
  simp [generate_sine]

lemma generate_sine_getD (i : ℕ) (hi : i < 128) :
    (generate_sine 128 4).getD i 0 =
      Real.sin (2 * Real.pi * 4 * (i : ℝ) / ((128 : ℕ) : ℝ)) := by
  rw [generate_sine, getD_map_range _ _ hi]

lemma sin_term_eq (i : ℕ) :
    ((Real.sin (2 * Real.pi * 4 * (i : ℝ) / ((128 : ℕ) : ℝ)) : ℝ) : ℂ) =
      (cexp128 (-(4 * i)) - cexp128 (4 * i)) * Complex.I / 2 := by
  rw [Complex.ofReal_sin]
  simp only [Complex.sin, cexp128]
  have h1 : -((2 * Real.pi * 4 * (i : ℝ) / ((128 : ℕ) : ℝ) : ℝ) : ℂ) * Complex.I =
      2 * (Real.pi : ℂ) * Complex.I * ((-(4 * i) : ℤ) : ℂ) / 128 := by
    push_cast
    ring
  have h2 : ((2 * Real.pi * 4 * (i : ℝ) / ((128 : ℕ) : ℝ) : ℝ) : ℂ) * Complex.I =
      2 * (Real.pi : ℂ) * Complex.I * ((4 * i : ℤ) : ℂ) / 128 := by
    push_cast
    ring
  rw [h1, h2]

lemma exp_term_eq (k i : ℕ) :
    Complex.exp (-(2 * (Real.pi : ℂ) * Complex.I * (k : ℂ) * (i : ℂ)) / ((128 : ℕ) : ℂ)) =
      cexp128 (-((k : ℤ) * i)) := by
  simp only [cexp128]
  congr 1
  push_cast
  ring

lemma dft_sine (k : ℕ) :
    dft (generate_sine 128 4) k =
      ((if (128 : ℤ) ∣ -(4 + (k : ℤ)) then (128 : ℂ) else 0) -
        (if (128 : ℤ) ∣ (4 - (k : ℤ)) then (128 : ℂ) else 0)) * Complex.I / 2 := by
  rw [dft, generate_sine_length]
  have hterm : ∀ i ∈ Finset.range 128,
      ((generate_sine 128 4).getD i 0 : ℂ) *
        Complex.exp (-(2 * (Real.pi : ℂ) * Complex.I * (k : ℂ) * (i : ℂ)) /
          ((128 : ℕ) : ℂ)) =
      (cexp128 ((-(4 + (k : ℤ))) * i) - cexp128 ((4 - (k : ℤ)) * i)) * Complex.I / 2 := by
    intro i hi
    rw [Finset.mem_range] at hi
    rw [generate_sine_getD i hi, sin_term_eq i, exp_term_eq k i]
    have hA : cexp128 (-(4 * i)) * cexp128 (-((k : ℤ) * i)) =
        cexp128 ((-(4 + (k : ℤ))) * i) := by
      rw [← cexp128_add]
      congr 1
      ring
    have hB : cexp128 (4 * i) * cexp128 (-((k : ℤ) * i)) =
        cexp128 ((4 - (k : ℤ)) * i) := by
      rw [← cexp128_add]
      congr 1
      ring
    rw [← hA, ← hB]
    ring
  rw [Finset.sum_congr rfl hterm, ← Finset.sum_div, ← Finset.sum_mul,
    Finset.sum_sub_distrib, sum_cexp128, sum_cexp128]

lemma dft_sine_eval (k : ℕ) (hk : k < 64) :
    dft (generate_sine 128 4) k = if k = 4 then (-64) * Complex.I else 0 := by
  rw [dft_sine k]
  have hk' : (k : ℤ) < 64 := by exact_mod_cast hk
  have hk0 : (0 : ℤ) ≤ (k : ℤ) := Int.natCast_nonneg k
  have hnd1 : ¬ (128 : ℤ) ∣ -(4 + (k : ℤ)) := by
    intro h
    rw [Int.dvd_neg] at h
    have hle := Int.le_of_dvd (by omega) h
    omega
  rw [if_neg hnd1]
  by_cases h4 : k = 4
  · subst h4
    rw [if_pos (by norm_num), if_pos rfl]
    ring
  · have hnd2 : ¬ (128 : ℤ) ∣ (4 - (k : ℤ)) := by
      intro h
      have h0 : (4 - (k : ℤ)) = 0 := by
        refine Int.eq_zero_of_abs_lt_dvd h ?_
        rw [abs_lt]
        constructor <;> omega
      have hkz : (k : ℤ) = 4 := by omega
      exact h4 (by exact_mod_cast hkz)
    rw [if_neg hnd2, if_neg h4]
    ring

lemma sine_mags_getD (k : ℕ) (hk : k < 64) :
    (compute_fft_magnitudes (generate_sine 128 4)).getD k 0 =
      (if k = 0 then 1 else 2) * Complex.abs (dft (generate_sine 128 4) k) /
        ((128 : ℕ) : ℝ) := by
  rw [compute_fft_magnitudes, generate_sine_length,
    show (128 : ℕ) / 2 = 64 from rfl, getD_map_range _ _ hk]

/-- Claim C7 (confirmed): for the sine wave with 128 samples and 4 periods,
the magnitude spectrum's largest value among bins 1..63 occurs exactly at
bin 4 (every other such bin is strictly smaller). -/
theorem sine_peak_bin (k : ℕ) (h1 : 1 ≤ k) (h2 : k < 64) (h4 : k ≠ 4) :
    (compute_fft_magnitudes (generate_sine 128 4)).getD k 0 <
      (compute_fft_magnitudes (generate_sine 128 4)).getD 4 0 := by
  have hb4 : (compute_fft_magnitudes (generate_sine 128 4)).getD 4 0 = 1 := by
    rw [sine_mags_getD 4 (by omega), dft_sine_eval 4 (by omega), if_pos rfl,
      if_neg (by omega : ¬ (4 : ℕ) = 0)]
    have habs : Complex.abs ((-64) * Complex.I) = 64 := by
      rw [map_mul, Complex.abs_I, mul_one, show ((-64 : ℂ)) = -(64 : ℂ) by norm_num,
        AbsoluteValue.map_neg, Complex.abs_ofNat]
    rw [habs]
    norm_num
  have hbk : (compute_fft_magnitudes (generate_sine 128 4)).getD k 0 = 0 := by
    rw [sine_mags_getD k h2, dft_sine_eval k h2, if_neg h4,
      if_neg (by omega : ¬ k = 0)]
    simp
  rw [hbk, hb4]
  norm_num

/-- Claim C7 (witness): bin 7 of the 128-sample, 4-period sine spectrum is
strictly below bin 4. -/
theorem sine_peak_bin_witness :
    (compute_fft_magnitudes (generate_sine 128 4)).getD 7 0 <
      (compute_fft_magnitudes (generate_sine 128 4)).getD 4 0 :=
  sine_peak_bin 7 (by omega) (by omega) (by omega)

end FourierDemo
